import Mathlib

/-!
Verification of VWsFriend against its specification.

The repository provides two source artefacts:

* `vwsfriend/fix_weconnect_auth.py` — a patch script that edits installed
  library files (oauthlib, weconnect) by string replacement, and embeds a
  replacement `doWebAuth` method.  Its string transformations and the embedded
  method are shallowly embedded below over `List Char` (Python `str`), with
  the HTTP session, `urljoin` and the regex form-field extraction treated as
  external oracles supplied through an environment record.

* `vwsfriend/tests/test_charge_agent.py` — tests of the Adaptive Subscription
  Manager (`ChargeAgent`).  The manager's own code is not part of the staged
  sources, so it is modelled from the specification (section 4.2 of spec.md):
  see the `Manager` namespace.
-/

set_option maxRecDepth 8000

namespace PyStr

/-- Python `s.startswith(p)` on strings as character lists. -/
def startswith : List Char → List Char → Bool
  | _, [] => true
  | [], _ :: _ => false
  | c :: cs, p :: ps => c == p && startswith cs ps

/-- Python `p in s` (substring containment) on strings as character lists. -/
def containsSub : List Char → List Char → Bool
  | [], pat => startswith [] pat
  | l@(_ :: t), pat => startswith l pat || containsSub t pat

/-- Python `s.replace(old, new)`: replace every non-overlapping occurrence of
`old`, scanning left to right.  (For an empty `old` Python would insert `new`
between all characters; the script only ever calls this with non-empty
patterns, and an empty `old` is treated as matching nowhere.) -/
def replaceAll (old new : List Char) : List Char → List Char
  | [] => []
  | c :: cs =>
    if startswith (c :: cs) old && !old.isEmpty then
      new ++ replaceAll old new (cs.drop (old.length - 1))
    else
      c :: replaceAll old new cs
termination_by l => l.length
decreasing_by
  · simp only [List.length_drop, List.length_cons]
    omega
  · simp only [List.length_cons]
    omega

/-- Helper for `findSub`: the first index `≥ i` at which `pat` occurs. -/
def findSubAux (pat : List Char) : List Char → Nat → Option Nat
  | [], i => if startswith [] pat then some i else none
  | l@(_ :: t), i => if startswith l pat then some i else findSubAux pat t (i + 1)

/-- Python `s.find(pat)`, with `none` for `-1`. -/
def findSub (l pat : List Char) : Option Nat :=
  findSubAux pat l 0

/-- Python `s.find(pat, start)`, with `none` for `-1`. -/
def findSubFrom (l pat : List Char) (start : Nat) : Option Nat :=
  (findSubAux pat (l.drop start) 0).map (· + start)

theorem startswith_append {l p : List Char} (t : List Char)
    (h : startswith l p = true) : startswith (l ++ t) p = true := by
  induction p generalizing l with
  | nil => simp [startswith]
  | cons hd tl ih =>
    cases l with
    | nil => simp [startswith] at h
    | cons c cs =>
      simp only [startswith, Bool.and_eq_true] at h
      simpa [startswith, h.1] using ih h.2

theorem containsSub_append_right {l p : List Char} (t : List Char)
    (h : containsSub l p = true) : containsSub (l ++ t) p = true := by
  induction l with
  | nil =>
    cases p with
    | nil => cases t <;> simp [containsSub, startswith]
    | cons hd tl => simp [containsSub, startswith] at h
  | cons c cs ih =>
    simp only [containsSub, Bool.or_eq_true] at h
    rcases h with h | h
    · have hsw := startswith_append (l := c :: cs) t h
      simp only [List.cons_append] at hsw
      simp [containsSub, hsw]
    · simp [containsSub, ih h]

theorem containsSub_append_left {l p : List Char} (a : List Char)
    (h : containsSub l p = true) : containsSub (a ++ l) p = true := by
  induction a with
  | nil => simpa using h
  | cons c cs ih =>
    simp [containsSub, ih]

theorem containsSub_middle {x p : List Char} (a b : List Char)
    (h : containsSub x p = true) : containsSub (a ++ x ++ b) p = true := by
  have h1 : containsSub (x ++ b) p = true := containsSub_append_right b h
  have h2 : containsSub (a ++ (x ++ b)) p = true := containsSub_append_left a h1
  simpa [List.append_assoc] using h2

/-- Whenever `old` occurs in `l`, the replacement result contains a copy of
`new` surrounded by some prefix and suffix. -/
theorem replaceAll_surrounds {old : List Char} (new : List Char)
    (hne : old ≠ []) :
    ∀ l : List Char, containsSub l old = true →
      ∃ a b, replaceAll old new l = a ++ new ++ b := by
  intro l
  induction l with
  | nil =>
    intro h
    cases old with
    | nil => exact absurd rfl hne
    | cons o os => simp [containsSub, startswith] at h
  | cons c cs ih =>
    intro h
    by_cases hs : startswith (c :: cs) old = true
    · refine ⟨[], replaceAll old new (cs.drop (old.length - 1)), ?_⟩
      rw [replaceAll]
      simp [hs, List.isEmpty_iff, hne]
    · have h' : containsSub cs old = true := by
        simp only [containsSub, Bool.or_eq_true] at h
        rcases h with h | h
        · exact absurd h hs
        · exact h
      obtain ⟨a, b, hab⟩ := ih h'
      refine ⟨c :: a, b, ?_⟩
      rw [replaceAll]
      simp [hs, hab]

end PyStr

namespace FixAuth

/-- Patch 1 of the script: the original oauthlib transport check
(`fix_weconnect_auth.py`, line 16). -/
def old_check : String := "if not is_secure_transport(uri):"

/-- Patch 1: the replacement that additionally allows the custom scheme
(line 17). -/
def new_check : String :=
  "if not is_secure_transport(uri) and not uri.startswith('weconnect://'):"

/-- The already-patched marker patch 1 scans for (line 19). -/
def schemeMarker : String := "uri.startswith('weconnect://')"

/-- Patch 1 applied to a file content (lines 16–25 of the script): replace the
transport check only when it is present and the custom-scheme check is not
already there; otherwise leave the content untouched. -/
def patch1 (c : List Char) : List Char :=
  if PyStr.containsSub c old_check.data && !PyStr.containsSub c schemeMarker.data then
    PyStr.replaceAll old_check.data new_check.data c
  else c

/-- The already-patched marker for `vw_web_session.py` (line 57); it is part of
the docstring of the replacement method. -/
def legacyMarker : String := "Old legacy form-based flow removed"

/-- The method signature the script searches for (line 167). -/
def doWebAuthSig : String := "    def doWebAuth(self, url: str) -> str:"

/-- The next-method pattern that delimits the replaced region (line 170). -/
def nextDefPat : String := "\n    def "

/-- The complete replacement `doWebAuth` method embedded in the script
(lines 64–164), verbatim. -/
def newDoWebAuthMethod : String := r#"    def doWebAuth(self, url: str) -> str:
        """
        Perform web authentication using the new VW identity flow.
        Old legacy form-based flow removed as it no longer works.
        """
"# ++ "        import re as re_module\n        import logging\n" ++ r#"
        LOG = logging.getLogger("weconnect")

        # Check if we already have the OAuth callback URL
        if url.startswith('weconnect://authenticated'):
            return url

        # Get authorization page, manually following redirects to avoid custom scheme issues
        max_initial_redirects = 5
        while max_initial_redirects > 0:
            # Check for custom scheme before making request
            if url.startswith('weconnect://'):
                return url

            response = self.websession.get(url, allow_redirects=False)

            if response.status_code == requests.codes['ok']:
                break

            if response.status_code in (requests.codes['found'], requests.codes['see_other']):
                if 'Location' not in response.headers:
                    raise APICompatibilityError('Forwarding without Location in headers')
                url = urljoin(url, response.headers['Location'])
                max_initial_redirects -= 1
                continue

            raise APICompatibilityError(f'Failed to fetch authorization page, status code: {response.status_code}')

        if max_initial_redirects == 0:
            raise APICompatibilityError('Too many redirects while fetching authorization page')

        # Extract all hidden form fields from the page
        login_data = {}

        # Find all input fields (including hidden ones)
        for input_match in re_module.finditer(r'<input[^>]*name="([^"]*)"[^>]*value="([^"]*)"[^>]*>', response.text):
            field_name = input_match.group(1)
            field_value = input_match.group(2)
            login_data[field_name] = field_value

        # Verify we have the state token
        if 'state' not in login_data:
            raise APICompatibilityError('Could not find state token in authorization page')

        state = login_data['state']

        # Add/override username and password
        login_data['username'] = self.sessionuser.username
        login_data['password'] = self.sessionuser.password

        # Post credentials to new login endpoint
        login_url = f'https://identity.vwgroup.io/u/login?state={state}'

        response = self.websession.post(login_url, data=login_data, allow_redirects=False)

        if response.status_code not in (requests.codes['found'], requests.codes['see_other']):
            raise AuthentificationError(f'Login failed with status: {response.status_code}')

        if 'Location' not in response.headers:
            raise APICompatibilityError('No Location header in login response')

        # Follow redirect chain until we reach weconnect://authenticated
        # Use a plain requests.Session here instead of OAuth2Session to avoid interference
        redirect_url = response.headers['Location']

        # Create plain session with cookies from OAuth session
        plain_session = requests.Session()
        plain_session.cookies.update(self.websession.cookies)
        plain_session.headers.update(self.websession.headers)

        max_redirects = 10

        while max_redirects > 0:
            LOG.debug(f"Following redirect: {redirect_url[:80]}...")

            # Check for custom scheme
            if redirect_url.startswith('weconnect://'):
                LOG.debug(f"Got callback URL with fragment: {redirect_url[:100]}...")
                return redirect_url

            # Process non-custom scheme URLs
            redirect_url = urljoin('https://identity.vwgroup.io', redirect_url)
            response = plain_session.get(redirect_url, allow_redirects=False)

            if 'Location' not in response.headers:
                LOG.error(f"No Location header in redirect, status: {response.status_code}")
                raise APICompatibilityError('No Location header in redirect')

            redirect_url = response.headers['Location']
            max_redirects -= 1

        raise APICompatibilityError('Too many redirects during authentication')

"#

/-- The `vw_web_session.py` transformation (lines 56–183 of the script): if the
already-patched marker is present the file is left unchanged (the script exits
before writing); otherwise the region from the `doWebAuth` signature to the
next method definition is replaced by `newDoWebAuthMethod`; if either search
fails the script exits without writing. -/
def patchVw (c : List Char) : List Char :=
  if PyStr.containsSub c legacyMarker.data then c
  else
    match PyStr.findSub c doWebAuthSig.data with
    | none => c
    | some doweb_start =>
      match PyStr.findSubFrom c nextDefPat.data (doweb_start + 1) with
      | none => c
      | some next_method =>
        c.take doweb_start ++ newDoWebAuthMethod.data ++ c.drop next_method

/-- An HTTP response as the embedded `doWebAuth` observes one: status code,
optional `Location` header, and the page text. -/
structure Resp where
  status : Nat
  location : Option (List Char)
  text : List Char

/-- The external collaborators of the embedded `doWebAuth`: the HTTP session
(a stream of responses, one per issued request, indexed by request number),
`urllib.parse.urljoin`, the regex extraction of `<input>` name/value pairs
(returning the dictionary as an association list with unique keys), and the
session user's credentials. -/
structure AuthEnv where
  http : Nat → Resp
  urljoin : List Char → List Char → List Char
  extractInputs : List Char → List (List Char × List Char)
  username : List Char
  password : List Char

/-- The two exception kinds the embedded method raises. -/
inductive AuthErr where
  | apiCompat (msg : List Char)
  | authentification (msg : List Char)
deriving DecidableEq

def wcAuthUrl : String := "weconnect://authenticated"

def wcScheme : String := "weconnect://"

def tooManyInitialMsg : String := "Too many redirects while fetching authorization page"

def fwdNoLocMsg : String := "Forwarding without Location in headers"

def failedFetchMsg : String := "Failed to fetch authorization page, status code: "

def noStateMsg : String := "Could not find state token in authorization page"

def loginFailedMsg : String := "Login failed with status: "

def noLocLoginMsg : String := "No Location header in login response"

def noLocRedirectMsg : String := "No Location header in redirect"

def tooManyAuthMsg : String := "Too many redirects during authentication"

def identityBase : String := "https://identity.vwgroup.io"

def loginUrlBase : String := "https://identity.vwgroup.io/u/login?state="

def stateKey : String := "state"

def usernameKey : String := "username"

def passwordKey : String := "password"

/-- Outcome of the initial redirect loop: either the function returns a custom
scheme url directly, or the loop broke out with an OK page. -/
inductive InitOut where
  | done (url : List Char)
  | page (r : Resp) (k : Nat)

/-- The initial redirect loop of the embedded method (lines 79–100): fuel is
`max_initial_redirects`, `k` the index of the next HTTP request.  Returns the
list of urls fetched together with the outcome; when the fuel is exhausted the
while loop falls through and the method raises (line 99–100).  Response codes:
`requests.codes` gives 200 for `ok`, 302 for `found`, 303 for `see_other`. -/
def initialLoop (env : AuthEnv) : Nat → Nat → List Char → List (List Char) × Except AuthErr InitOut
  | 0, _, _ => ([], .error (.apiCompat tooManyInitialMsg.data))
  | fuel + 1, k, url =>
    if PyStr.startswith url wcScheme.data then
      ([], .ok (.done url))
    else
      let r := env.http k
      if r.status == 200 then
        ([url], .ok (.page r (k + 1)))
      else if r.status == 302 || r.status == 303 then
        match r.location with
        | none => ([url], .error (.apiCompat fwdNoLocMsg.data))
        | some loc =>
          let rest := initialLoop env fuel (k + 1) (env.urljoin url loc)
          (url :: rest.1, rest.2)
      else
        ([url], .error (.apiCompat (failedFetchMsg.data ++ Nat.toDigits 10 r.status)))

/-- The post-login redirect loop of the embedded method (lines 141–162): fuel
is `max_redirects`; each iteration first checks the custom scheme, then joins
the url against the identity base and fetches it, requiring a `Location`
header. -/
def redirectLoop (env : AuthEnv) : Nat → Nat → List Char → List (List Char) × Except AuthErr (List Char)
  | 0, _, _ => ([], .error (.apiCompat tooManyAuthMsg.data))
  | fuel + 1, k, redirect_url =>
    if PyStr.startswith redirect_url wcScheme.data then
      ([], .ok redirect_url)
    else
      let u := env.urljoin identityBase.data redirect_url
      let r := env.http k
      match r.location with
      | none => ([u], .error (.apiCompat noLocRedirectMsg.data))
      | some loc =>
        let rest := redirectLoop env fuel (k + 1) loc
        (u :: rest.1, rest.2)

/-- Python dict assignment `d[key] = v` on an association list. -/
def setKV : List (List Char × List Char) → List Char → List Char → List (List Char × List Char)
  | [], key, v => [(key, v)]
  | (k, w) :: rest, key, v =>
    if k == key then (key, v) :: rest else (k, w) :: setKV rest key v

/-- The embedded `doWebAuth` method (lines 64–163 of the script), end to end:
early return for an already-authenticated callback url, the initial redirect
loop, extraction of the hidden form fields and of the `state` token, the
credential POST to the login endpoint, and the post-login redirect chain.
Returns the list of request urls issued alongside the result. -/
def doWebAuth (env : AuthEnv) (url : List Char) : List (List Char) × Except AuthErr (List Char) :=
  if PyStr.startswith url wcAuthUrl.data then
    ([], .ok url)
  else
    let init := initialLoop env 5 0 url
    match init.2 with
    | .error e => (init.1, .error e)
    | .ok (.done u) => (init.1, .ok u)
    | .ok (.page r k) =>
      let login_data := env.extractInputs r.text
      match List.lookup stateKey.data login_data with
      | none => (init.1, .error (.apiCompat noStateMsg.data))
      | some state =>
        let login_data := setKV (setKV login_data usernameKey.data env.username)
          passwordKey.data env.password
        let login_url := loginUrlBase.data ++ state
        let r2 := env.http k
        if !(r2.status == 302 || r2.status == 303) then
          (init.1 ++ [login_url],
            .error (.authentification (loginFailedMsg.data ++ Nat.toDigits 10 r2.status)))
        else
          match r2.location with
          | none => (init.1 ++ [login_url], .error (.apiCompat noLocLoginMsg.data))
          | some loc =>
            let rest := redirectLoop env 10 (k + 1) loc
            (init.1 ++ login_url :: rest.1, rest.2)

end FixAuth

namespace FixAuth

theorem patch1_marker_noop (c : List Char)
    (h : PyStr.containsSub c schemeMarker.data = true) : patch1 c = c := by
  simp [patch1, h]

theorem patchVw_marker_noop (c : List Char)
    (h : PyStr.containsSub c legacyMarker.data = true) : patchVw c = c := by
  simp [patchVw, h]

theorem new_check_has_marker :
    PyStr.containsSub new_check.data schemeMarker.data = true := by decide

theorem method_has_marker :
    PyStr.containsSub newDoWebAuthMethod.data legacyMarker.data = true := by decide

theorem patch1_result_marker (c : List Char)
    (h : PyStr.containsSub c old_check.data = true) :
    PyStr.containsSub (PyStr.replaceAll old_check.data new_check.data c)
      schemeMarker.data = true := by
  obtain ⟨a, b, hab⟩ :=
    PyStr.replaceAll_surrounds new_check.data (by decide) c h
  rw [hab]
  exact PyStr.containsSub_middle a b new_check_has_marker

/-- C8: the patch script's file transformations are idempotent: patch 1 leaves
unchanged any content that already contains the custom-scheme check
`uri.startswith('weconnect://')`, the `vw_web_session.py` step leaves unchanged
any content containing the marker `Old legacy form-based flow removed`, and
consequently applying either step twice gives the same content as applying it
once. -/
theorem C8_patch_steps_idempotent :
    (∀ c : List Char, PyStr.containsSub c schemeMarker.data = true → patch1 c = c) ∧
    (∀ c : List Char, PyStr.containsSub c legacyMarker.data = true → patchVw c = c) ∧
    (∀ c : List Char, patch1 (patch1 c) = patch1 c) ∧
    (∀ c : List Char, patchVw (patchVw c) = patchVw c) := by
  refine ⟨patch1_marker_noop, patchVw_marker_noop, ?_, ?_⟩
  · intro c
    cases h2 : PyStr.containsSub c schemeMarker.data with
    | true =>
      have e := patch1_marker_noop c h2
      rw [e]; exact e
    | false =>
      cases h1 : PyStr.containsSub c old_check.data with
      | false =>
        have e : patch1 c = c := by simp [patch1, h1]
        rw [e]; exact e
      | true =>
        have hg : patch1 c = PyStr.replaceAll old_check.data new_check.data c := by
          simp [patch1, h1, h2]
        have hm : PyStr.containsSub (patch1 c) schemeMarker.data = true := by
          rw [hg]; exact patch1_result_marker c h1
        exact patch1_marker_noop _ hm
  · intro c
    cases hm : PyStr.containsSub c legacyMarker.data with
    | true =>
      have e := patchVw_marker_noop c hm
      rw [e]; exact e
    | false =>
      cases hf : PyStr.findSub c doWebAuthSig.data with
      | none =>
        have e : patchVw c = c := by simp [patchVw, hm, hf]
        rw [e]; exact e
      | some s =>
        cases hg : PyStr.findSubFrom c nextDefPat.data (s + 1) with
        | none =>
          have e : patchVw c = c := by simp [patchVw, hm, hf, hg]
          rw [e]; exact e
        | some n =>
          have e : patchVw c = c.take s ++ newDoWebAuthMethod.data ++ c.drop n := by
            simp [patchVw, hm, hf, hg]
          have hmm : PyStr.containsSub (patchVw c) legacyMarker.data = true := by
            rw [e]; exact PyStr.containsSub_middle _ _ method_has_marker
          exact patchVw_marker_noop _ hmm

/-- Witness for C8 at concrete contents: a content that is exactly the
custom-scheme check is left unchanged by patch 1, and a content that is exactly
the legacy marker is left unchanged by the vw_web_session step. -/
theorem C8_witness :
    patch1 schemeMarker.data = schemeMarker.data ∧
    patchVw legacyMarker.data = legacyMarker.data :=
  ⟨C8_patch_steps_idempotent.1 schemeMarker.data (by decide),
   C8_patch_steps_idempotent.2.1 legacyMarker.data (by decide)⟩

theorem initialLoop_requests_le (env : AuthEnv) :
    ∀ (fuel k : Nat) (url : List Char),
      (initialLoop env fuel k url).1.length ≤ fuel := by
  intro fuel
  induction fuel with
  | zero => intro k url; simp [initialLoop]
  | succ f ih =>
    intro k url
    simp only [initialLoop]
    split
    · simp
    · split
      · simp
      · split
        · split
          · simp
          · simpa using Nat.succ_le_succ (ih _ _)
        · simp

theorem redirectLoop_requests_le (env : AuthEnv) :
    ∀ (fuel k : Nat) (url : List Char),
      (redirectLoop env fuel k url).1.length ≤ fuel := by
  intro fuel
  induction fuel with
  | zero => intro k url; simp [redirectLoop]
  | succ f ih =>
    intro k url
    simp only [redirectLoop]
    split
    · simp
    · split
      · simp
      · simpa using Nat.succ_le_succ (ih _ _)

/-- C9: both redirect loops of the embedded `doWebAuth` are bounded: with its
actual budgets (5 while fetching the authorization page, 10 after posting the
credentials) each loop issues at most that many HTTP requests, and an exhausted
budget makes the loop raise `APICompatibilityError` (Too many redirects) rather
than iterate further — so both loops terminate on every input. -/
theorem C9_redirect_loops_bounded (env : AuthEnv) (k : Nat) (url : List Char) :
    (initialLoop env 5 k url).1.length ≤ 5 ∧
    (redirectLoop env 10 k url).1.length ≤ 10 ∧
    (initialLoop env 0 k url).2 = .error (.apiCompat tooManyInitialMsg.data) ∧
    (redirectLoop env 0 k url).2 = .error (.apiCompat tooManyAuthMsg.data) :=
  ⟨initialLoop_requests_le env 5 k url, redirectLoop_requests_le env 10 k url,
   by simp [initialLoop], by simp [redirectLoop]⟩

/-- A response that redirects to another https url. -/
def cxHttpResp : Resp := ⟨302, some ("https://next".data), []⟩

/-- A response that redirects to the custom-scheme callback. -/
def cxWcResp : Resp := ⟨302, some ("weconnect://done".data), []⟩

/-- Environment for the C10 counterexample: the first four responses redirect
to an https url, the fifth to a `weconnect://` url. -/
def cxEnv : AuthEnv where
  http := fun k => if k < 4 then cxHttpResp else cxWcResp
  urljoin := fun _ loc => loc
  extractInputs := fun _ => []
  username := []
  password := []

def cxStartUrl : String := "https://start"

deriving instance DecidableEq for Except

/-- C10 counterexample: a redirect target starting with `weconnect://` that is
reached exactly when the initial budget of 5 redirects runs out is NOT returned
as the final result — `doWebAuth` raises `APICompatibilityError` (Too many
redirects while fetching authorization page) instead. -/
theorem C10_counterexample :
    PyStr.startswith ((cxEnv.http 4).location.getD []) wcScheme.data = true ∧
    (doWebAuth cxEnv cxStartUrl.data).2 =
      .error (.apiCompat tooManyInitialMsg.data) := by
  constructor
  · decide
  · decide

/-- C10 (amended): a url that already starts with `weconnect://authenticated`
is returned unchanged by `doWebAuth` with no HTTP request issued; a url that
starts with `weconnect://` while the redirect budget is not yet exhausted is
returned as the final result by either loop without being fetched; but when a
budget reaches zero the loop raises `APICompatibilityError` even if the pending
target has the custom scheme. -/
theorem C10_custom_scheme_amended (env : AuthEnv) (url : List Char) (k fuel : Nat) :
    (PyStr.startswith url wcAuthUrl.data = true → doWebAuth env url = ([], .ok url)) ∧
    (PyStr.startswith url wcScheme.data = true → 0 < fuel →
      initialLoop env fuel k url = ([], .ok (.done url)) ∧
      redirectLoop env fuel k url = ([], .ok url)) ∧
    (initialLoop env 0 k url).2 = .error (.apiCompat tooManyInitialMsg.data) ∧
    (redirectLoop env 0 k url).2 = .error (.apiCompat tooManyAuthMsg.data) := by
  refine ⟨?_, ?_, by simp [initialLoop], by simp [redirectLoop]⟩
  · intro h
    simp [doWebAuth, h]
  · intro h hf
    match fuel, hf with
    | f + 1, _ =>
      exact ⟨by simp [initialLoop, h], by simp [redirectLoop, h]⟩

/-- Witness for the amended C10 at concrete inputs. -/
theorem C10_witness :
    doWebAuth cxEnv wcAuthUrl.data = ([], .ok wcAuthUrl.data) ∧
    initialLoop cxEnv 5 0 wcScheme.data = ([], .ok (.done wcScheme.data)) ∧
    redirectLoop cxEnv 10 0 wcScheme.data = ([], .ok wcScheme.data) :=
  ⟨(C10_custom_scheme_amended cxEnv wcAuthUrl.data 0 5).1 (by decide),
   ((C10_custom_scheme_amended cxEnv wcScheme.data 0 5).2.1 (by decide) (by decide)).1,
   ((C10_custom_scheme_amended cxEnv wcScheme.data 0 10).2.1 (by decide) (by decide)).2⟩

end FixAuth

namespace Manager

/-- Modelled from the spec: the Observable Leaf of spec.md section 3 (the
`charge_agent.py` implementation is not among the staged sources).  Only the
`enabled` flag is relevant to the Manager's behaviour. -/
structure ObsLeaf where
  enabled : Bool
deriving DecidableEq

/-- Modelled from the spec: the Observable Group of spec.md section 3 — an
`enabled` flag plus a lookup of child leaves by name. -/
structure ObsGroup where
  enabled : Bool
  children : List (String × ObsLeaf)
deriving DecidableEq

/-- Modelled from the spec: the Status Tree of spec.md section 3 — a mapping
from domain name to group name to Observable Group.  The coarse listener
registry is not part of this record: the listeners attributable to the one
Manager under study are tracked in `ManagerState.coarse`. -/
structure StatusTree where
  domains : List (String × List (String × ObsGroup))
deriving DecidableEq

/-- Group lookup in the tree (structural presence). -/
def findGroup (tree : StatusTree) (domain group : String) : Option ObsGroup :=
  (List.lookup domain tree.domains).bind (fun gs => List.lookup group gs)

/-- Leaf lookup in the tree (structural presence, independent of `enabled`). -/
def findLeaf (tree : StatusTree) (domain group field : String) : Option ObsLeaf :=
  (findGroup tree domain group).bind (fun g => List.lookup field g.children)

/-- Whether a group is present and reports `enabled == true` (the
`statusExists`/`enabled` readiness reading of spec.md sections 4.1 and 4.2). -/
def groupEnabled (tree : StatusTree) (domain group : String) : Bool :=
  match findGroup tree domain group with
  | some g => g.enabled
  | none => false

/-- Whether a field is present and reports `enabled == true`; a structurally
absent field reports not enabled (the normal PENDING condition). -/
def leafEnabled (tree : StatusTree) (domain group field : String) : Bool :=
  match findLeaf tree domain group field with
  | some l => l.enabled
  | none => false

/-- Modelled from the spec: one declared subscription request of a unit —
group path, field name, handler, required-for-readiness flag (spec.md
section 3, Subscription Unit), plus the optional privacy tag naming the
privacy flag that suppresses this handler (section 4.2, privacy
suppression). -/
structure FieldSub where
  domain : String
  group : String
  field : String
  handler : Nat
  required : Bool
  privacyTag : Option String
deriving DecidableEq

/-- Modelled from the spec: a Subscription Unit — a name and its ordered list
of declared field subscriptions. -/
structure SubUnit where
  name : String
  fields : List FieldSub
deriving DecidableEq

/-- A fine-grained listener as attached on a leaf, identified by the unit it
belongs to, the field path and the handler. -/
structure Entry where
  unit : String
  domain : String
  group : String
  field : String
  handler : Nat
deriving DecidableEq

/-- An informational privacy notice identifying the affected unit (and the
suppressed field). -/
structure PrivacyNotice where
  unit : String
  field : String
deriving DecidableEq

/-- Modelled from the spec: the externally observable state of one Manager —
the per-unit readiness flags (as the list of registered unit names), the
fine-grained listeners it has attached, the coarse tree-level listeners it has
installed (by event kind), and the informational notices it has logged. -/
structure ManagerState where
  registered : List String
  fineListeners : List Entry
  coarse : List String
  logs : List PrivacyNotice
deriving DecidableEq

/-- The event kind of the coarse tree-level listener. -/
def updatedFromServer : String := "UPDATED_FROM_SERVER"

/-- Whether a supplied set of privacy flags suppresses this field's handler. -/
def suppressed (flags : List String) (f : FieldSub) : Bool :=
  match f.privacyTag with
  | some p => flags.contains p
  | none => false

/-- The fine-grained listener entry for a field of a unit. -/
def mkEntry (uname : String) (f : FieldSub) : Entry :=
  ⟨uname, f.domain, f.group, f.field, f.handler⟩

/-- Modelled from the spec: unit readiness (spec.md section 4.2 step 1) — the
unit's group(s) must report `enabled == true` and every field marked
required-for-readiness must itself report `enabled == true`. -/
def unitReady (tree : StatusTree) (u : SubUnit) : Bool :=
  u.fields.all (fun f => groupEnabled tree f.domain f.group) &&
  u.fields.all (fun f => !f.required || leafEnabled tree f.domain f.group f.field)

/-- Modelled from the spec: the informational notices logged at construction —
one per declared handler suppressed by a supplied privacy flag, identifying the
affected unit (spec.md section 4.2; the test evidence shows the notice is
emitted during construction). -/
def privacyNotices (flags : List String) (units : List SubUnit) : List PrivacyNotice :=
  units.flatMap (fun u => u.fields.filterMap (fun f =>
    if suppressed flags f then some ⟨u.name, f.field⟩ else none))

/-- The fine-grained listener entries a unit contributes once it registers:
every declared field except the privacy-suppressed ones. -/
def entriesOf (flags : List String) (u : SubUnit) : List Entry :=
  (u.fields.filter (fun f => !suppressed flags f)).map (mkEntry u.name)

/-- Modelled from the spec: attach the fine-grained listeners for a unit's
declared fields (spec.md section 4.2 step 2).  A privacy-suppressed handler is
skipped; attaching to a structurally absent leaf is a fatal configuration
error (section 4.2, failure semantics). -/
def attachFields (flags : List String) (tree : StatusTree) (uname : String) :
    List FieldSub → ManagerState → Except String ManagerState
  | [], st => .ok st
  | f :: fs, st =>
    if suppressed flags f then
      attachFields flags tree uname fs st
    else
      match findLeaf tree f.domain f.group f.field with
      | some _ => attachFields flags tree uname fs
          { st with fineListeners := st.fineListeners ++ [mkEntry uname f] }
      | none => .error ("structurally absent field " ++ f.field ++ " in unit " ++ uname)

/-- Modelled from the spec: attach all of a unit's listeners and transition it
to REGISTERED. -/
def attachUnit (flags : List String) (tree : StatusTree) (u : SubUnit)
    (st : ManagerState) : Except String ManagerState :=
  match attachFields flags tree u.name u.fields st with
  | .error e => .error e
  | .ok st' => .ok { st' with registered := st'.registered ++ [u.name] }

/-- Modelled from the spec: the construction pass over the units in
declaration order (spec.md section 4.2 steps 1–3): a ready unit attaches its
listeners and registers, a unit that is not ready is left PENDING with no
listener attached. -/
def runUnits (flags : List String) (tree : StatusTree) :
    List SubUnit → ManagerState → Except String ManagerState
  | [], st => .ok st
  | u :: us, st =>
    if unitReady tree u then
      match attachUnit flags tree u st with
      | .error e => .error e
      | .ok st' => runUnits flags tree us st'
    else runUnits flags tree us st

/-- Install the single coarse tree-level listener (event kind "updated from
server"). -/
def installCoarse (st : ManagerState) : ManagerState :=
  { st with coarse := st.coarse ++ [updatedFromServer] }

/-- Modelled from the spec: Manager construction (spec.md section 4.2,
construction protocol): process every unit in declaration order, then install
exactly one coarse listener iff any unit is PENDING. -/
def constructManager (flags : List String) (tree : StatusTree)
    (units : List SubUnit) : Except String ManagerState :=
  let st0 : ManagerState := ⟨[], [], [], privacyNotices flags units⟩
  match runUnits flags tree units st0 with
  | .error e => .error e
  | .ok st1 => .ok (if units.all (fun u => unitReady tree u) then st1 else installCoarse st1)

/-- A unit's externally readable readiness flag. -/
def isRegistered (st : ManagerState) (u : SubUnit) : Bool :=
  st.registered.contains u.name

/-- Modelled from the spec: the re-check pass of the coarse-event handler
(spec.md section 4.2, coarse-event protocol steps 1–2): every still-PENDING
unit that has become ready attaches its listeners and registers. -/
def runPendingUnits (flags : List String) (tree : StatusTree) :
    List SubUnit → ManagerState → Except String ManagerState
  | [], st => .ok st
  | u :: us, st =>
    if !isRegistered st u && unitReady tree u then
      match attachUnit flags tree u st with
      | .error e => .error e
      | .ok st' => runPendingUnits flags tree us st'
    else runPendingUnits flags tree us st

/-- Modelled from the spec: removing the coarse listener; removing one that is
not installed is an invariant violation (spec.md section 7,
listener-removal-mismatch). -/
def removeCoarse (st : ManagerState) : Except String ManagerState :=
  if st.coarse.contains updatedFromServer then
    .ok { st with coarse := st.coarse.erase updatedFromServer }
  else .error "coarse listener removal mismatch"

/-- Modelled from the spec: the coarse-event handler (spec.md section 4.2,
coarse-event protocol): re-check every pending unit, then, if no unit remains
PENDING, remove the coarse listener exactly once. -/
def coarseHandler (flags : List String) (tree : StatusTree) (units : List SubUnit)
    (st : ManagerState) : Except String ManagerState :=
  match runPendingUnits flags tree units st with
  | .error e => .error e
  | .ok st1 =>
    if units.all (fun u => isRegistered st1 u) then removeCoarse st1 else .ok st1

/-- One tree-wide update: the coarse callback fires only while the Manager's
coarse listener is installed on the tree. -/
def coarseStep (flags : List String) (units : List SubUnit) (st : ManagerState)
    (tree : StatusTree) : Except String ManagerState :=
  if st.coarse.isEmpty then .ok st else coarseHandler flags tree units st

/-- A sequence of tree-wide updates (each with the tree in some state),
delivered in order. -/
def runUpdates (flags : List String) (units : List SubUnit) :
    List StatusTree → ManagerState → Except String ManagerState
  | [], st => .ok st
  | t :: ts, st =>
    match coarseStep flags units st t with
    | .error e => .error e
    | .ok st' => runUpdates flags units ts st'

/-- The names of the units that are ready on a given tree, in declaration
order. -/
def readyNames (tree : StatusTree) (units : List SubUnit) : List String :=
  (units.filter (fun u => unitReady tree u)).map SubUnit.name

/-- The fine-grained listener entries of the ready units, in declaration
order. -/
def readyEntries (flags : List String) (tree : StatusTree)
    (units : List SubUnit) : List Entry :=
  (units.filter (fun u => unitReady tree u)).flatMap (entriesOf flags)

/-- The units a coarse-event pass newly registers: still pending, now ready. -/
def newlyReady (tree : StatusTree) (st : ManagerState)
    (units : List SubUnit) : List SubUnit :=
  units.filter (fun u => !isRegistered st u && unitReady tree u)

/-- The hypothesis of claim C1 as literally stated: every required field of
every unit reports `enabled == true`. -/
def allRequiredEnabled (tree : StatusTree) (units : List SubUnit) : Bool :=
  units.all (fun u => u.fields.all (fun f =>
    !f.required || leafEnabled tree f.domain f.group f.field))

end Manager

namespace Manager

theorem contains_iff_mem {l : List String} {a : String} :
    l.contains a = true ↔ a ∈ l := List.elem_iff

theorem contains_append_single {l : List String} {a b : String} (h : b ≠ a) :
    (l ++ [a]).contains b = l.contains b := by
  cases h1 : (l ++ [a]).contains b with
  | true =>
    rw [contains_iff_mem, List.mem_append, List.mem_singleton] at h1
    rcases h1 with h1 | h1
    · exact (contains_iff_mem.mpr h1).symm
    · exact absurd h1 h
  | false =>
    cases h2 : l.contains b with
    | false => rfl
    | true =>
      have : b ∈ l ++ [a] := List.mem_append.mpr (Or.inl (contains_iff_mem.mp h2))
      rw [← contains_iff_mem] at this
      rw [h1] at this
      cases this

theorem attachFields_ok {flags : List String} {tree : StatusTree} {uname : String} :
    ∀ (fs : List FieldSub) (st st' : ManagerState),
      attachFields flags tree uname fs st = .ok st' →
      st'.registered = st.registered ∧
      st'.fineListeners = st.fineListeners ++
        (fs.filter (fun f => !suppressed flags f)).map (mkEntry uname) ∧
      st'.coarse = st.coarse ∧ st'.logs = st.logs := by
  intro fs
  induction fs with
  | nil =>
    intro st st' h
    simp only [attachFields] at h
    injection h with h
    subst h
    simp
  | cons f fs ih =>
    intro st st' h
    cases hsup : suppressed flags f with
    | true =>
      simp only [attachFields, hsup, if_true] at h
      obtain ⟨h1, h2, h3, h4⟩ := ih st st' h
      exact ⟨h1, by simp [h2, List.filter_cons, hsup], h3, h4⟩
    | false =>
      simp only [attachFields, hsup, Bool.false_eq_true, if_false] at h
      cases hfl : findLeaf tree f.domain f.group f.field with
      | none =>
        rw [hfl] at h
        exact Except.noConfusion h
      | some lf =>
        simp only [hfl] at h
        obtain ⟨h1, h2, h3, h4⟩ := ih _ st' h
        refine ⟨by simpa using h1, ?_, by simpa using h3, by simpa using h4⟩
        simp only at h2
        rw [h2]
        simp [List.filter_cons, hsup, List.append_assoc]

theorem attachFields_exists {flags : List String} {tree : StatusTree} {uname : String} :
    ∀ (fs : List FieldSub) (st : ManagerState),
      (∀ f ∈ fs, suppressed flags f = false →
        (findLeaf tree f.domain f.group f.field).isSome = true) →
      ∃ st', attachFields flags tree uname fs st = .ok st' := by
  intro fs
  induction fs with
  | nil => intro st _; exact ⟨st, rfl⟩
  | cons f fs ih =>
    intro st hwf
    cases hsup : suppressed flags f with
    | true =>
      obtain ⟨st', h⟩ := ih st (fun g hg hs => hwf g (List.mem_cons_of_mem f hg) hs)
      exact ⟨st', by simp [attachFields, hsup, h]⟩
    | false =>
      have hfl := hwf f (List.mem_cons_self f fs) hsup
      cases hflm : findLeaf tree f.domain f.group f.field with
      | none => rw [hflm] at hfl; cases hfl
      | some lf =>
        obtain ⟨st', h⟩ :=
          ih { st with fineListeners := st.fineListeners ++ [mkEntry uname f] }
            (fun g hg hs => hwf g (List.mem_cons_of_mem f hg) hs)
        exact ⟨st', by simp [attachFields, hsup, hflm, h]⟩

theorem attachUnit_ok {flags : List String} {tree : StatusTree} {u : SubUnit}
    {st st' : ManagerState} (h : attachUnit flags tree u st = .ok st') :
    st'.registered = st.registered ++ [u.name] ∧
    st'.fineListeners = st.fineListeners ++ entriesOf flags u ∧
    st'.coarse = st.coarse ∧ st'.logs = st.logs := by
  unfold attachUnit at h
  cases hf : attachFields flags tree u.name u.fields st with
  | error e => rw [hf] at h; cases h
  | ok st1 =>
    rw [hf] at h
    injection h with h
    subst h
    obtain ⟨h1, h2, h3, h4⟩ := attachFields_ok u.fields st st1 hf
    exact ⟨by simp [h1], by simpa [entriesOf] using h2, by simp [h3], by simp [h4]⟩

theorem attachUnit_exists {flags : List String} {tree : StatusTree} {u : SubUnit}
    (st : ManagerState)
    (hwf : ∀ f ∈ u.fields, suppressed flags f = false →
      (findLeaf tree f.domain f.group f.field).isSome = true) :
    ∃ st', attachUnit flags tree u st = .ok st' := by
  obtain ⟨st1, h⟩ := @attachFields_exists flags tree u.name u.fields st hwf
  refine ⟨{ st1 with registered := st1.registered ++ [u.name] }, ?_⟩
  simp only [attachUnit]
  rw [h]

theorem runUnits_ok {flags : List String} {tree : StatusTree} :
    ∀ (us : List SubUnit) (st st' : ManagerState),
      runUnits flags tree us st = .ok st' →
      st'.registered = st.registered ++ readyNames tree us ∧
      st'.fineListeners = st.fineListeners ++ readyEntries flags tree us ∧
      st'.coarse = st.coarse ∧ st'.logs = st.logs := by
  intro us
  induction us with
  | nil =>
    intro st st' h
    simp only [runUnits] at h
    injection h with h
    subst h
    simp [readyNames, readyEntries]
  | cons u us ih =>
    intro st st' h
    cases hr : unitReady tree u with
    | true =>
      simp only [runUnits, hr, if_true] at h
      cases ha : attachUnit flags tree u st with
      | error e => rw [ha] at h; cases h
      | ok st1 =>
        rw [ha] at h
        obtain ⟨g1, g2, g3, g4⟩ := ih st1 st' h
        obtain ⟨a1, a2, a3, a4⟩ := attachUnit_ok ha
        refine ⟨?_, ?_, by rw [g3, a3], by rw [g4, a4]⟩
        · rw [g1, a1]
          simp [readyNames, List.filter_cons, hr, List.append_assoc]
        · rw [g2, a2]
          simp [readyEntries, List.filter_cons, hr, List.append_assoc]
    | false =>
      simp only [runUnits, hr, Bool.false_eq_true, if_false] at h
      obtain ⟨g1, g2, g3, g4⟩ := ih st st' h
      refine ⟨?_, ?_, g3, g4⟩
      · rw [g1]; simp [readyNames, List.filter_cons, hr]
      · rw [g2]; simp [readyEntries, List.filter_cons, hr]

theorem runUnits_exists {flags : List String} {tree : StatusTree} :
    ∀ (us : List SubUnit) (st : ManagerState),
      (∀ u ∈ us, unitReady tree u = true → ∀ f ∈ u.fields,
        suppressed flags f = false →
        (findLeaf tree f.domain f.group f.field).isSome = true) →
      ∃ st', runUnits flags tree us st = .ok st' := by
  intro us
  induction us with
  | nil => intro st _; exact ⟨st, rfl⟩
  | cons u us ih =>
    intro st hwf
    cases hr : unitReady tree u with
    | true =>
      obtain ⟨st1, ha⟩ := attachUnit_exists (u := u) st
        (hwf u (List.mem_cons_self u us) hr)
      obtain ⟨st', h⟩ := ih st1
        (fun v hv hrv => hwf v (List.mem_cons_of_mem u hv) hrv)
      exact ⟨st', by simp [runUnits, hr, ha, h]⟩
    | false =>
      obtain ⟨st', h⟩ := ih st
        (fun v hv hrv => hwf v (List.mem_cons_of_mem u hv) hrv)
      exact ⟨st', by simp [runUnits, hr, h]⟩

theorem constructManager_ok {flags : List String} {tree : StatusTree}
    {units : List SubUnit} {st : ManagerState}
    (h : constructManager flags tree units = .ok st) :
    st.registered = readyNames tree units ∧
    st.fineListeners = readyEntries flags tree units ∧
    st.coarse = (if units.all (fun u => unitReady tree u) then []
      else [updatedFromServer]) ∧
    st.logs = privacyNotices flags units := by
  unfold constructManager at h
  simp only at h
  cases hr : runUnits flags tree units ⟨[], [], [], privacyNotices flags units⟩ with
  | error e => rw [hr] at h; cases h
  | ok st1 =>
    rw [hr] at h
    injection h with h
    obtain ⟨h1, h2, h3, h4⟩ := runUnits_ok units _ st1 hr
    simp only at h1 h2 h3 h4
    cases hall : units.all (fun u => unitReady tree u) with
    | true =>
      rw [hall] at h
      simp only [if_true] at h
      subst h
      simp [h1, h2, h3, h4]
    | false =>
      rw [hall] at h
      simp only [Bool.false_eq_true, if_false] at h
      subst h
      simp [installCoarse, h1, h2, h3, h4]

theorem constructManager_exists {flags : List String} {tree : StatusTree}
    {units : List SubUnit}
    (hwf : ∀ u ∈ units, unitReady tree u = true → ∀ f ∈ u.fields,
      suppressed flags f = false →
      (findLeaf tree f.domain f.group f.field).isSome = true) :
    ∃ st, constructManager flags tree units = .ok st := by
  obtain ⟨st1, h⟩ := runUnits_exists units ⟨[], [], [], privacyNotices flags units⟩ hwf
  refine ⟨if units.all (fun u => unitReady tree u) then st1 else installCoarse st1, ?_⟩
  simp only [constructManager]
  rw [h]

theorem mem_readyNames {tree : StatusTree} {units : List SubUnit} {a : String} :
    a ∈ readyNames tree units ↔
      ∃ u, u ∈ units ∧ unitReady tree u = true ∧ u.name = a := by
  simp [readyNames, List.mem_map, List.mem_filter, and_assoc]

theorem mem_entriesOf {flags : List String} {u : SubUnit} {e : Entry} :
    e ∈ entriesOf flags u ↔
      ∃ f, f ∈ u.fields ∧ suppressed flags f = false ∧ mkEntry u.name f = e := by
  simp [entriesOf, List.mem_map, List.mem_filter, and_assoc]

theorem mem_readyEntries {flags : List String} {tree : StatusTree}
    {units : List SubUnit} {e : Entry} :
    e ∈ readyEntries flags tree units ↔
      ∃ u, u ∈ units ∧ unitReady tree u = true ∧ e ∈ entriesOf flags u := by
  simp [readyEntries, List.mem_flatMap, List.mem_filter, and_assoc]

theorem entriesOf_unit {flags : List String} {u : SubUnit} {e : Entry}
    (h : e ∈ entriesOf flags u) : e.unit = u.name := by
  rw [mem_entriesOf] at h
  obtain ⟨f, _, _, hf⟩ := h
  rw [← hf]
  rfl

theorem privacyNotices_mem {flags : List String} {units : List SubUnit}
    {u : SubUnit} {f : FieldSub} (hu : u ∈ units) (hf : f ∈ u.fields)
    (hs : suppressed flags f = true) :
    (⟨u.name, f.field⟩ : PrivacyNotice) ∈ privacyNotices flags units := by
  apply List.mem_flatMap.mpr
  exact ⟨u, hu, List.mem_filterMap.mpr ⟨f, hf, by simp [hs]⟩⟩

end Manager

namespace Manager

theorem removeCoarse_ok {st st' : ManagerState} (h : removeCoarse st = .ok st') :
    st'.registered = st.registered ∧ st'.fineListeners = st.fineListeners ∧
    st'.logs = st.logs ∧ st'.coarse = st.coarse.erase updatedFromServer := by
  unfold removeCoarse at h
  cases hc : st.coarse.contains updatedFromServer with
  | true =>
    rw [hc] at h
    simp only [if_true] at h
    injection h with h
    subst h
    simp
  | false =>
    rw [hc] at h
    simp only [Bool.false_eq_true, if_false] at h
    exact Except.noConfusion h

theorem runPendingUnits_extends {flags : List String} {tree : StatusTree} :
    ∀ (us : List SubUnit) (st st' : ManagerState),
      runPendingUnits flags tree us st = .ok st' →
      (∃ ext, st'.registered = st.registered ++ ext) ∧
      (∃ ext2, st'.fineListeners = st.fineListeners ++ ext2) ∧
      st'.coarse = st.coarse ∧ st'.logs = st.logs := by
  intro us
  induction us with
  | nil =>
    intro st st' h
    simp only [runPendingUnits] at h
    injection h with h
    subst h
    exact ⟨⟨[], by simp⟩, ⟨[], by simp⟩, rfl, rfl⟩
  | cons u us ih =>
    intro st st' h
    cases hg : (!isRegistered st u && unitReady tree u) with
    | true =>
      simp only [runPendingUnits, hg, if_true] at h
      cases ha : attachUnit flags tree u st with
      | error e => rw [ha] at h; exact Except.noConfusion h
      | ok st1 =>
        rw [ha] at h
        obtain ⟨⟨e1, g1⟩, ⟨e2, g2⟩, g3, g4⟩ := ih st1 st' h
        obtain ⟨a1, a2, a3, a4⟩ := attachUnit_ok ha
        refine ⟨⟨[u.name] ++ e1, ?_⟩, ⟨entriesOf flags u ++ e2, ?_⟩,
          by rw [g3, a3], by rw [g4, a4]⟩
        · rw [g1, a1, List.append_assoc]
        · rw [g2, a2, List.append_assoc]
    | false =>
      simp only [runPendingUnits, hg, Bool.false_eq_true, if_false] at h
      exact ih st st' h

theorem runPendingUnits_ok {flags : List String} {tree : StatusTree} :
    ∀ (us : List SubUnit) (st st' : ManagerState),
      (us.map SubUnit.name).Nodup →
      runPendingUnits flags tree us st = .ok st' →
      st'.registered = st.registered ++ (newlyReady tree st us).map SubUnit.name ∧
      st'.fineListeners = st.fineListeners ++
        (newlyReady tree st us).flatMap (entriesOf flags) ∧
      st'.coarse = st.coarse ∧ st'.logs = st.logs := by
  intro us
  induction us with
  | nil =>
    intro st st' _ h
    simp only [runPendingUnits] at h
    injection h with h
    subst h
    simp [newlyReady]
  | cons u us ih =>
    intro st st' hnd h
    rw [List.map_cons, List.nodup_cons] at hnd
    obtain ⟨hname, hnd⟩ := hnd
    cases hg : (!isRegistered st u && unitReady tree u) with
    | true =>
      simp only [runPendingUnits, hg, if_true] at h
      cases ha : attachUnit flags tree u st with
      | error e => rw [ha] at h; exact Except.noConfusion h
      | ok st1 =>
        rw [ha] at h
        obtain ⟨a1, a2, a3, a4⟩ := attachUnit_ok ha
        obtain ⟨g1, g2, g3, g4⟩ := ih st1 st' hnd h
        have hsame : newlyReady tree st1 us = newlyReady tree st us := by
          apply List.filter_congr
          intro v hv
          have hne : v.name ≠ u.name := by
            intro hvu
            exact hname (hvu ▸ List.mem_map_of_mem SubUnit.name hv)
          have : isRegistered st1 v = isRegistered st v := by
            unfold isRegistered
            rw [a1]
            exact contains_append_single hne
          rw [this]
        refine ⟨?_, ?_, by rw [g3, a3], by rw [g4, a4]⟩
        · rw [g1, hsame, a1]
          simp [newlyReady, List.filter_cons, hg, List.append_assoc]
        · rw [g2, hsame, a2]
          simp [newlyReady, List.filter_cons, hg, List.append_assoc]
    | false =>
      simp only [runPendingUnits, hg, Bool.false_eq_true, if_false] at h
      obtain ⟨g1, g2, g3, g4⟩ := ih st st' hnd h
      refine ⟨?_, ?_, g3, g4⟩
      · rw [g1]; simp [newlyReady, List.filter_cons, hg]
      · rw [g2]; simp [newlyReady, List.filter_cons, hg]

theorem runPendingUnits_exists {flags : List String} {tree : StatusTree} :
    ∀ (us : List SubUnit) (st : ManagerState),
      (∀ u ∈ us, unitReady tree u = true → ∀ f ∈ u.fields,
        suppressed flags f = false →
        (findLeaf tree f.domain f.group f.field).isSome = true) →
      ∃ st', runPendingUnits flags tree us st = .ok st' := by
  intro us
  induction us with
  | nil => intro st _; exact ⟨st, rfl⟩
  | cons u us ih =>
    intro st hwf
    cases hg : (!isRegistered st u && unitReady tree u) with
    | true =>
      have hr : unitReady tree u = true := by
        have hg' := hg
        simp only [Bool.and_eq_true] at hg'
        exact hg'.2
      obtain ⟨st1, ha⟩ := attachUnit_exists (u := u) st
        (hwf u (List.mem_cons_self u us) hr)
      obtain ⟨st', h⟩ := ih st1
        (fun v hv hrv => hwf v (List.mem_cons_of_mem u hv) hrv)
      exact ⟨st', by simp [runPendingUnits, hg, ha, h]⟩
    | false =>
      obtain ⟨st', h⟩ := ih st
        (fun v hv hrv => hwf v (List.mem_cons_of_mem u hv) hrv)
      exact ⟨st', by simp [runPendingUnits, hg, h]⟩

theorem coarseStep_registered_extends {flags : List String} {units : List SubUnit}
    {st : ManagerState} {tree : StatusTree} {st' : ManagerState}
    (h : coarseStep flags units st tree = .ok st') :
    ∃ ext, st'.registered = st.registered ++ ext := by
  unfold coarseStep at h
  cases hc : st.coarse.isEmpty with
  | true =>
    rw [hc] at h
    simp only [if_true] at h
    injection h with h
    subst h
    exact ⟨[], by simp⟩
  | false =>
    rw [hc] at h
    simp only [Bool.false_eq_true, if_false] at h
    unfold coarseHandler at h
    cases hp : runPendingUnits flags tree units st with
    | error e => rw [hp] at h; exact Except.noConfusion h
    | ok st1 =>
      rw [hp] at h
      have h2 : (if (units.all fun u => isRegistered st1 u) = true
          then removeCoarse st1 else Except.ok st1) = Except.ok st' := h
      obtain ⟨⟨ext, g1⟩, _, _, _⟩ := runPendingUnits_extends units st st1 hp
      cases hall : units.all (fun u => isRegistered st1 u) with
      | true =>
        rw [hall] at h2
        simp only [if_true] at h2
        obtain ⟨r1, _, _, _⟩ := removeCoarse_ok h2
        exact ⟨ext, by rw [r1, g1]⟩
      | false =>
        rw [hall] at h2
        simp only [Bool.false_eq_true, if_false] at h2
        injection h2 with h2
        subst h2
        exact ⟨ext, g1⟩

theorem runUpdates_registered_extends {flags : List String} {units : List SubUnit} :
    ∀ (ts : List StatusTree) (st st' : ManagerState),
      runUpdates flags units ts st = .ok st' →
      ∃ ext, st'.registered = st.registered ++ ext := by
  intro ts
  induction ts with
  | nil =>
    intro st st' h
    simp only [runUpdates] at h
    injection h with h
    subst h
    exact ⟨[], by simp⟩
  | cons t ts ih =>
    intro st st' h
    simp only [runUpdates] at h
    cases hs : coarseStep flags units st t with
    | error e => rw [hs] at h; exact Except.noConfusion h
    | ok st1 =>
      rw [hs] at h
      obtain ⟨e1, g1⟩ := coarseStep_registered_extends hs
      obtain ⟨e2, g2⟩ := ih st1 st' h
      exact ⟨e1 ++ e2, by rw [g2, g1, List.append_assoc]⟩

end Manager

namespace Manager

/-- The "charging" unit of the literal scenario (spec.md section 8): required
fields `carCapturedTimestamp` and `chargingState` under group `chargingStatus`,
optional `chargePower_kW`. -/
def carTsF : FieldSub := ⟨"charging", "chargingStatus", "carCapturedTimestamp", 0, true, none⟩

def chgStateF : FieldSub := ⟨"charging", "chargingStatus", "chargingState", 1, true, none⟩

def chgPowerF : FieldSub := ⟨"charging", "chargingStatus", "chargePower_kW", 2, false, none⟩

def plugConnF : FieldSub := ⟨"charging", "plugStatus", "plugConnectionState", 3, true, none⟩

def plugLockF : FieldSub := ⟨"charging", "plugStatus", "plugLockState", 4, false, none⟩

def chargingUnit : SubUnit := ⟨"charging", [carTsF, chgStateF, chgPowerF]⟩

def plugUnit : SubUnit := ⟨"plug", [plugConnF, plugLockF]⟩

def specUnits : List SubUnit := [chargingUnit, plugUnit]

/-- The literal scenario's tree with every group and leaf `enabled := b`. -/
def treeAll (b : Bool) : StatusTree :=
  ⟨[("charging",
     [("chargingStatus", ⟨b, [("carCapturedTimestamp", ⟨b⟩), ("chargingState", ⟨b⟩),
        ("chargePower_kW", ⟨b⟩)]⟩),
      ("plugStatus", ⟨b, [("plugConnectionState", ⟨b⟩), ("plugLockState", ⟨b⟩)]⟩)])]⟩

def treeReady : StatusTree := treeAll true

def treePending : StatusTree := treeAll false

/-- Charging status available, plug status present but not yet enabled. -/
def treePartial : StatusTree :=
  ⟨[("charging",
     [("chargingStatus", ⟨true, [("carCapturedTimestamp", ⟨true⟩), ("chargingState", ⟨true⟩),
        ("chargePower_kW", ⟨true⟩)]⟩),
      ("plugStatus", ⟨false, [("plugConnectionState", ⟨false⟩), ("plugLockState", ⟨false⟩)]⟩)])]⟩

/-- State after constructing on `treeReady` with no privacy flag. -/
def specReadySt : ManagerState :=
  ⟨["charging", "plug"],
   [mkEntry "charging" carTsF, mkEntry "charging" chgStateF, mkEntry "charging" chgPowerF,
    mkEntry "plug" plugConnF, mkEntry "plug" plugLockF], [], []⟩

/-- State after constructing on `treePending`: both units PENDING, one coarse
listener. -/
def pendingSt : ManagerState := ⟨[], [], [updatedFromServer], []⟩

/-- State after constructing on `treePartial`: charging registered, plug
PENDING, one coarse listener. -/
def partialSt : ManagerState :=
  ⟨["charging"],
   [mkEntry "charging" carTsF, mkEntry "charging" chgStateF, mkEntry "charging" chgPowerF],
   [updatedFromServer], []⟩

def noLocFlags : List String := ["no-locations"]

/-- A location field suppressed by the `no-locations` privacy flag. -/
def posF : FieldSub := ⟨"parking", "parkingPosition", "latitude", 5, false, some "no-locations"⟩

def posUnit : SubUnit := ⟨"position", [posF]⟩

/-- An optional field of the C1 counterexample living in a second,
not-yet-enabled group. -/
def cxOptF : FieldSub := ⟨"charging", "plugStatus", "plugConnectionState", 6, false, none⟩

/-- C1 counterexample unit: its required field is enabled but one of its
groups is not. -/
def cxChargingUnit : SubUnit := ⟨"charging", [carTsF, cxOptF]⟩

def c1Units : List SubUnit := [cxChargingUnit, posUnit]

/-- C1 counterexample tree: `chargingStatus` enabled with its leaf enabled,
`plugStatus` present but disabled, parking position available. -/
def c1Tree : StatusTree :=
  ⟨[("charging",
     [("chargingStatus", ⟨true, [("carCapturedTimestamp", ⟨true⟩)]⟩),
      ("plugStatus", ⟨false, [("plugConnectionState", ⟨false⟩)]⟩)]),
    ("parking", [("parkingPosition", ⟨true, [("latitude", ⟨true⟩)]⟩)])]⟩

def c1St : ManagerState :=
  ⟨["position"], [], [updatedFromServer], [⟨"position", "latitude"⟩]⟩

/-- A privacy-tagged optional field inside `chargingStatus` for the C3
counterexample. -/
def c3PosF : FieldSub := ⟨"charging", "chargingStatus", "position", 7, false, some "no-locations"⟩

def c3Unit : SubUnit := ⟨"charging", [carTsF, c3PosF]⟩

def c3Units : List SubUnit := [c3Unit]

def c3Tree0 : StatusTree :=
  ⟨[("charging",
     [("chargingStatus", ⟨false, [("carCapturedTimestamp", ⟨false⟩), ("position", ⟨false⟩)]⟩)])]⟩

def c3Tree1 : StatusTree :=
  ⟨[("charging",
     [("chargingStatus", ⟨true, [("carCapturedTimestamp", ⟨true⟩), ("position", ⟨true⟩)]⟩)])]⟩

def c3St0 : ManagerState := ⟨[], [], [updatedFromServer], [⟨"charging", "position"⟩]⟩

def c3St1 : ManagerState :=
  ⟨["charging"], [mkEntry "charging" carTsF], [], [⟨"charging", "position"⟩]⟩

def c5Tree : StatusTree :=
  ⟨[("parking", [("parkingPosition", ⟨true, [("latitude", ⟨true⟩)]⟩)])]⟩

def c5Units : List SubUnit := [posUnit]

def c5St0 : ManagerState := ⟨["position"], [mkEntry "position" posF], [], []⟩

def c5St1 : ManagerState := ⟨["position"], [], [], [⟨"position", "latitude"⟩]⟩

theorem unitReady_false_of_required {tree : StatusTree} {u : SubUnit} {f : FieldSub}
    (hf : f ∈ u.fields) (hreq : f.required = true)
    (hdis : leafEnabled tree f.domain f.group f.field = false) :
    unitReady tree u = false := by
  have h2 : u.fields.all
      (fun g => !g.required || leafEnabled tree g.domain g.group g.field) = false := by
    cases hval : u.fields.all
        (fun g => !g.required || leafEnabled tree g.domain g.group g.field) with
    | false => rfl
    | true =>
      have hfv := List.all_eq_true.mp hval f hf
      rw [hreq, hdis] at hfv
      simp at hfv
  unfold unitReady
  rw [h2, Bool.and_false]

theorem construct_registered_of_ready {flags : List String} {tree : StatusTree}
    {units : List SubUnit} {st : ManagerState} (u : SubUnit)
    (hok : constructManager flags tree units = .ok st) (hu : u ∈ units)
    (hr : unitReady tree u = true) : st.registered.contains u.name = true := by
  obtain ⟨h1, _, _, _⟩ := constructManager_ok hok
  rw [contains_iff_mem, h1]
  exact mem_readyNames.mpr ⟨u, hu, hr, rfl⟩

theorem construct_entry_of_ready {flags : List String} {tree : StatusTree}
    {units : List SubUnit} {st : ManagerState} (u : SubUnit) (f : FieldSub)
    (hok : constructManager flags tree units = .ok st) (hu : u ∈ units)
    (hr : unitReady tree u = true) (hf : f ∈ u.fields)
    (hsup : suppressed flags f = false) : mkEntry u.name f ∈ st.fineListeners := by
  obtain ⟨_, h2, _, _⟩ := constructManager_ok hok
  rw [h2]
  exact mem_readyEntries.mpr ⟨u, hu, hr, mem_entriesOf.mpr ⟨f, hf, hsup, rfl⟩⟩

theorem construct_not_registered {flags : List String} {tree : StatusTree}
    {units : List SubUnit} {st : ManagerState} (u : SubUnit)
    (hok : constructManager flags tree units = .ok st) (hu : u ∈ units)
    (hnr : unitReady tree u = false)
    (hnd : (units.map SubUnit.name).Nodup) :
    st.registered.contains u.name = false := by
  obtain ⟨h1, _, _, _⟩ := constructManager_ok hok
  cases hc : st.registered.contains u.name with
  | false => rfl
  | true =>
    rw [contains_iff_mem, h1, mem_readyNames] at hc
    obtain ⟨v, hv, hrv, hvn⟩ := hc
    have hveq : v = u := List.inj_on_of_nodup_map hnd hv hu hvn
    rw [hveq, hnr] at hrv
    exact Bool.noConfusion hrv

theorem construct_no_unit_entries {flags : List String} {tree : StatusTree}
    {units : List SubUnit} {st : ManagerState} (u : SubUnit)
    (hok : constructManager flags tree units = .ok st) (hu : u ∈ units)
    (hnr : unitReady tree u = false)
    (hnd : (units.map SubUnit.name).Nodup) :
    ∀ e ∈ st.fineListeners, e.unit ≠ u.name := by
  obtain ⟨_, h2, _, _⟩ := constructManager_ok hok
  intro e he hen
  rw [h2, mem_readyEntries] at he
  obtain ⟨v, hv, hrv, hev⟩ := he
  have hvn : v.name = u.name := by rw [← entriesOf_unit hev, hen]
  have hveq : v = u := List.inj_on_of_nodup_map hnd hv hu hvn
  rw [hveq, hnr] at hrv
  exact Bool.noConfusion hrv

theorem construct_coarse_of_pending {flags : List String} {tree : StatusTree}
    {units : List SubUnit} {st : ManagerState} (u : SubUnit)
    (hok : constructManager flags tree units = .ok st) (hu : u ∈ units)
    (hnr : unitReady tree u = false) : st.coarse = [updatedFromServer] := by
  obtain ⟨_, _, h3, _⟩ := constructManager_ok hok
  have hall : units.all (fun v => unitReady tree v) = false := by
    cases hv : units.all (fun v => unitReady tree v) with
    | false => rfl
    | true =>
      have := List.all_eq_true.mp hv u hu
      rw [hnr] at this
      exact Bool.noConfusion this
  rw [h3, hall]
  simp

theorem construct_coarse_empty {flags : List String} {tree : StatusTree}
    {units : List SubUnit} {st : ManagerState}
    (hok : constructManager flags tree units = .ok st)
    (hready : ∀ u ∈ units, unitReady tree u = true) : st.coarse = [] := by
  obtain ⟨_, _, h3, _⟩ := constructManager_ok hok
  rw [h3, List.all_eq_true.mpr hready]
  simp

end Manager

namespace Manager

/-- C1 counterexample: in this construction every required field of every unit
reports `enabled == true` (`allRequiredEnabled` is the claim's hypothesis as
literally stated), yet after construction the "charging" unit's readiness flag
is false (one of its groups is not enabled), no fine-grained listener at all is
attached (the "position" unit's only handler is privacy-suppressed), and a
coarse listener IS installed. -/
theorem C1_counterexample :
    allRequiredEnabled c1Tree c1Units = true ∧
    constructManager noLocFlags c1Tree c1Units = .ok c1St ∧
    c1St.registered.contains "charging" = false ∧
    mkEntry "position" posF ∉ c1St.fineListeners ∧
    c1St.coarse = [updatedFromServer] := by
  refine ⟨by decide, by decide, by decide, by decide, by decide⟩

/-- C1 (amended): for every Manager whose construction succeeds while every
unit is ready — each unit's groups report `enabled == true` in addition to its
required fields — after construction every unit's readiness flag is true,
fine-grained listeners are attached to every declared field that is not
suppressed by a privacy flag, and no coarse tree-level listener is
installed. -/
theorem C1_all_ready_amended (flags : List String) (tree : StatusTree)
    (units : List SubUnit) (st : ManagerState)
    (hok : constructManager flags tree units = .ok st)
    (hready : ∀ u ∈ units, unitReady tree u = true) :
    (∀ u ∈ units, st.registered.contains u.name = true) ∧
    (∀ u ∈ units, ∀ f ∈ u.fields, suppressed flags f = false →
      mkEntry u.name f ∈ st.fineListeners) ∧
    st.coarse = [] := by
  refine ⟨?_, ?_, construct_coarse_empty hok hready⟩
  · intro u hu
    exact construct_registered_of_ready u hok hu (hready u hu)
  · intro u hu f hf hsup
    exact construct_entry_of_ready u f hok hu (hready u hu) hf hsup

/-- Witness for the amended C1 on the literal scenario with both groups and
all fields enabled and no privacy flag. -/
theorem C1_witness :
    (∀ u ∈ specUnits, specReadySt.registered.contains u.name = true) ∧
    (∀ u ∈ specUnits, ∀ f ∈ u.fields, suppressed [] f = false →
      mkEntry u.name f ∈ specReadySt.fineListeners) ∧
    specReadySt.coarse = [] :=
  C1_all_ready_amended [] treeReady specUnits specReadySt (by decide) (by decide)

/-- C2: if at construction some unit has a required field with
`enabled == false`, then after construction that unit's readiness flag is
false, none of that unit's fine-grained listeners are attached, and exactly one
coarse tree-level listener attributable to this Manager is installed,
registered for the "updated from server" event kind. -/
theorem C2_pending_unit (flags : List String) (tree : StatusTree)
    (units : List SubUnit) (st : ManagerState) (u : SubUnit) (f : FieldSub)
    (hok : constructManager flags tree units = .ok st)
    (hu : u ∈ units) (hf : f ∈ u.fields) (hreq : f.required = true)
    (hdis : leafEnabled tree f.domain f.group f.field = false)
    (hnd : (units.map SubUnit.name).Nodup) :
    st.registered.contains u.name = false ∧
    (∀ e ∈ st.fineListeners, e.unit ≠ u.name) ∧
    st.coarse = [updatedFromServer] := by
  have hnr := unitReady_false_of_required hf hreq hdis
  exact ⟨construct_not_registered u hok hu hnr hnd,
    construct_no_unit_entries u hok hu hnr hnd,
    construct_coarse_of_pending u hok hu hnr⟩

/-- Witness for C2 on the literal scenario with nothing enabled yet. -/
theorem C2_witness :
    pendingSt.registered.contains chargingUnit.name = false ∧
    (∀ e ∈ pendingSt.fineListeners, e.unit ≠ chargingUnit.name) ∧
    pendingSt.coarse = [updatedFromServer] :=
  C2_pending_unit [] treePending specUnits pendingSt chargingUnit carTsF
    (by decide) (by decide) (by decide) (by decide) (by decide) (by decide)

/-- C4: units are independent: when unit A is ready at construction and unit B
has a required field that is not enabled, then immediately after construction
A's readiness flag is true with A's (non-suppressed) fine-grained listeners
attached, B's readiness flag is false with none of B's fine-grained listeners
attached, and a coarse listener is installed on behalf of B. -/
theorem C4_partial_independence (flags : List String) (tree : StatusTree)
    (units : List SubUnit) (st : ManagerState) (A B : SubUnit) (f : FieldSub)
    (hok : constructManager flags tree units = .ok st)
    (hA : A ∈ units) (hB : B ∈ units)
    (hAready : unitReady tree A = true)
    (hf : f ∈ B.fields) (hreq : f.required = true)
    (hdis : leafEnabled tree f.domain f.group f.field = false)
    (hnd : (units.map SubUnit.name).Nodup) :
    st.registered.contains A.name = true ∧
    (∀ g ∈ A.fields, suppressed flags g = false → mkEntry A.name g ∈ st.fineListeners) ∧
    st.registered.contains B.name = false ∧
    (∀ e ∈ st.fineListeners, e.unit ≠ B.name) ∧
    st.coarse = [updatedFromServer] := by
  have hnr := unitReady_false_of_required hf hreq hdis
  refine ⟨construct_registered_of_ready A hok hA hAready, ?_,
    construct_not_registered B hok hB hnr hnd,
    construct_no_unit_entries B hok hB hnr hnd,
    construct_coarse_of_pending B hok hB hnr⟩
  intro g hg hsup
  exact construct_entry_of_ready A g hok hA hAready hg hsup

/-- Witness for C4 on the partial-availability scenario: charging ready, plug
not. -/
theorem C4_witness :
    partialSt.registered.contains chargingUnit.name = true ∧
    (∀ g ∈ chargingUnit.fields, suppressed [] g = false →
      mkEntry chargingUnit.name g ∈ partialSt.fineListeners) ∧
    partialSt.registered.contains plugUnit.name = false ∧
    (∀ e ∈ partialSt.fineListeners, e.unit ≠ plugUnit.name) ∧
    partialSt.coarse = [updatedFromServer] :=
  C4_partial_independence [] treePartial specUnits partialSt chargingUnit plugUnit
    plugConnF (by decide) (by decide) (by decide) (by decide) (by decide)
    (by decide) (by decide) (by decide)

end Manager

namespace Manager

/-- C5: privacy suppression of a field X does not change its unit's readiness
flag compared to the identical construction without the flag (indeed the whole
registered list is unchanged), no listener is attached for X specifically, and
an informational notice identifying the affected unit is logged.  The last
hypothesis says X's handler occurs in the declarations only privacy-suppressed
(in the agent each handler is declared once). -/
theorem C5_privacy_suppression (flags : List String) (p : String)
    (tree : StatusTree) (units : List SubUnit) (st0 st1 : ManagerState)
    (u : SubUnit) (X : FieldSub)
    (hu : u ∈ units) (hX : X ∈ u.fields) (htag : X.privacyTag = some p)
    (h0 : constructManager flags tree units = .ok st0)
    (h1 : constructManager (p :: flags) tree units = .ok st1)
    (huniq : ∀ v ∈ units, ∀ g ∈ v.fields,
      mkEntry v.name g = mkEntry u.name X → suppressed (p :: flags) g = true) :
    st1.registered = st0.registered ∧
    st1.registered.contains u.name = st0.registered.contains u.name ∧
    mkEntry u.name X ∉ st1.fineListeners ∧
    (⟨u.name, X.field⟩ : PrivacyNotice) ∈ st1.logs := by
  obtain ⟨a1, _, _, _⟩ := constructManager_ok h0
  obtain ⟨b1, b2, _, b4⟩ := constructManager_ok h1
  have hre : st1.registered = st0.registered := by rw [a1, b1]
  refine ⟨hre, by rw [hre], ?_, ?_⟩
  · intro hmem
    rw [b2, mem_readyEntries] at hmem
    obtain ⟨v, hv, hrv, hev⟩ := hmem
    rw [mem_entriesOf] at hev
    obtain ⟨g, hg, hgsup, hge⟩ := hev
    have hcon := huniq v hv g hg hge
    rw [hgsup] at hcon
    exact Bool.noConfusion hcon
  · rw [b4]
    apply privacyNotices_mem hu hX
    unfold suppressed
    rw [htag]
    rw [contains_iff_mem]
    exact List.mem_cons_self p flags

/-- Witness for C5: a location unit with its handler tagged `no-locations`,
constructed with and without the flag. -/
theorem C5_witness :
    c5St1.registered = c5St0.registered ∧
    c5St1.registered.contains posUnit.name = c5St0.registered.contains posUnit.name ∧
    mkEntry posUnit.name posF ∉ c5St1.fineListeners ∧
    (⟨posUnit.name, posF.field⟩ : PrivacyNotice) ∈ c5St1.logs :=
  C5_privacy_suppression [] "no-locations" c5Tree c5Units c5St0 c5St1 posUnit posF
    (by decide) (by decide) (by decide) (by decide) (by decide) (by decide)

/-- C6: the per-unit registered flag is monotone: across construction and any
sequence of tree-wide updates (including updates on trees where previously
enabled fields report `enabled == false` again), a registered name stays
registered — the registered list only ever grows, so the flag flips false to
true at most once and never back. -/
theorem C6_registered_monotone (flags : List String) (tree : StatusTree)
    (units : List SubUnit) (ts : List StatusTree) (st0 st' : ManagerState)
    (n : String)
    (hok : constructManager flags tree units = .ok st0)
    (hrun : runUpdates flags units ts st0 = .ok st') :
    (st0.registered.contains n = true → st'.registered.contains n = true) ∧
    (∃ ext, st'.registered = st0.registered ++ ext) := by
  obtain ⟨ext, hx⟩ := runUpdates_registered_extends ts st0 st' hrun
  refine ⟨?_, ⟨ext, hx⟩⟩
  intro hc
  rw [contains_iff_mem, hx]
  exact List.mem_append.mpr (Or.inl (contains_iff_mem.mp hc))

/-- Witness for C6: construct on the partial tree, then deliver an update with
everything enabled (plug registers, coarse listener removed) followed by an
update with everything disabled again; "charging" stays registered. -/
theorem C6_witness :
    (partialSt.registered.contains "charging" = true →
      specReadySt.registered.contains "charging" = true) ∧
    (∃ ext, specReadySt.registered = partialSt.registered ++ ext) :=
  C6_registered_monotone [] treePartial specUnits [treeReady, treePending]
    partialSt specReadySt "charging" (by decide) (by decide)

/-- C7: a group or field that is missing or not yet enabled at readiness-check
time is never surfaced as an error: construction completes normally leaving the
unit PENDING, and so does the coarse-event handler on any state in which the
unit is still unregistered.  (The well-formedness hypothesis rules out the
orthogonal fatal configuration error: every ready unit's non-suppressed fields
exist structurally.) -/
theorem C7_not_ready_not_error (flags : List String) (tree : StatusTree)
    (units : List SubUnit) (u : SubUnit)
    (hu : u ∈ units)
    (hnr : unitReady tree u = false)
    (hnd : (units.map SubUnit.name).Nodup)
    (hwf : ∀ v ∈ units, unitReady tree v = true → ∀ f ∈ v.fields,
      suppressed flags f = false →
      (findLeaf tree f.domain f.group f.field).isSome = true) :
    (∃ st, constructManager flags tree units = .ok st ∧
      st.registered.contains u.name = false) ∧
    (∀ st : ManagerState, st.registered.contains u.name = false →
      ∃ st', coarseHandler flags tree units st = .ok st' ∧
        st'.registered.contains u.name = false) := by
  constructor
  · obtain ⟨st, hok⟩ := constructManager_exists hwf
    exact ⟨st, hok, construct_not_registered u hok hu hnr hnd⟩
  · intro st hp
    obtain ⟨st1, hrun⟩ := runPendingUnits_exists units st hwf
    obtain ⟨r1, _, _, _⟩ := runPendingUnits_ok units st st1 hnd hrun
    have hp1 : st1.registered.contains u.name = false := by
      cases hc : st1.registered.contains u.name with
      | false => rfl
      | true =>
        rw [contains_iff_mem, r1, List.mem_append] at hc
        rcases hc with hc | hc
        · rw [← contains_iff_mem, hp] at hc
          exact Bool.noConfusion hc
        · rw [List.mem_map] at hc
          obtain ⟨v, hvmem, hvn⟩ := hc
          have hvin := List.mem_filter.mp hvmem
          have hveq : v = u := List.inj_on_of_nodup_map hnd hvin.1 hu hvn
          have hg := hvin.2
          rw [hveq] at hg
          simp only [Bool.and_eq_true] at hg
          obtain ⟨_, hg2⟩ := hg
          rw [hnr] at hg2
          exact Bool.noConfusion hg2
    have hall : units.all (fun v => isRegistered st1 v) = false := by
      cases hv : units.all (fun v => isRegistered st1 v) with
      | false => rfl
      | true =>
        have hcv := List.all_eq_true.mp hv u hu
        unfold isRegistered at hcv
        rw [hp1] at hcv
        exact Bool.noConfusion hcv
    refine ⟨st1, ?_, hp1⟩
    unfold coarseHandler
    rw [hrun]
    show (if (units.all fun v => isRegistered st1 v) = true
        then removeCoarse st1 else Except.ok st1) = Except.ok st1
    rw [hall]
    simp

/-- Witness for C7 on the partial scenario, with the plug unit pending. -/
theorem C7_witness :
    (∃ st, constructManager [] treePartial specUnits = .ok st ∧
      st.registered.contains plugUnit.name = false) ∧
    (∀ st : ManagerState, st.registered.contains plugUnit.name = false →
      ∃ st', coarseHandler [] treePartial specUnits st = .ok st' ∧
        st'.registered.contains plugUnit.name = false) :=
  C7_not_ready_not_error [] treePartial specUnits plugUnit
    (by decide) (by decide) (by decide) (by decide)

end Manager

namespace Manager

/-- C3 counterexample: a Manager constructed with a pending unit, under the
`no-locations` privacy flag.  After the coarse event fires with everything
enabled, the unit registers and the coarse listener is removed, but NO listener
is attached for the unit's privacy-suppressed declared field — contradicting
"attaches fine-grained listeners to every declared field of that unit". -/
theorem C3_counterexample :
    constructManager noLocFlags c3Tree0 c3Units = .ok c3St0 ∧
    c3St0.registered.contains "charging" = false ∧
    coarseHandler noLocFlags c3Tree1 c3Units c3St0 = .ok c3St1 ∧
    c3St1.registered.contains "charging" = true ∧
    mkEntry "charging" c3PosF ∉ c3St1.fineListeners ∧
    c3St1.coarse = [] := by
  refine ⟨by decide, by decide, by decide, by decide, by decide, by decide⟩

/-- C3 (amended): for a Manager constructed with pending units, once the
pending units' readiness conditions hold on the updated tree, invoking the
coarse listener registers each such unit, attaches fine-grained listeners to
every declared field of that unit that is not privacy-suppressed, and — no
unit remaining pending — removes the coarse listener exactly once: it is never
removed while some unit remains pending, and once removed the callback never
fires again (any further updates leave the state unchanged). -/
theorem C3_coarse_event_amended (flags : List String) (tree0 tree1 : StatusTree)
    (units : List SubUnit) (st0 : ManagerState)
    (hok : constructManager flags tree0 units = .ok st0)
    (hpend : ∃ u ∈ units, st0.registered.contains u.name = false)
    (hnd : (units.map SubUnit.name).Nodup)
    (hready : ∀ u ∈ units, st0.registered.contains u.name = false →
      unitReady tree1 u = true)
    (hwf : ∀ u ∈ units, unitReady tree1 u = true → ∀ f ∈ u.fields,
      suppressed flags f = false →
      (findLeaf tree1 f.domain f.group f.field).isSome = true) :
    ∃ st', coarseHandler flags tree1 units st0 = .ok st' ∧
      (∀ u ∈ units, st'.registered.contains u.name = true) ∧
      (∀ u ∈ units, st0.registered.contains u.name = false →
        ∀ f ∈ u.fields, suppressed flags f = false →
          mkEntry u.name f ∈ st'.fineListeners) ∧
      st'.coarse = [] ∧
      (∀ (tree2 : StatusTree) (st2 : ManagerState),
        coarseHandler flags tree2 units st0 = .ok st2 →
        (∃ v ∈ units, st2.registered.contains v.name = false) →
        st2.coarse = st0.coarse) ∧
      (∀ ts : List StatusTree, runUpdates flags units ts st' = .ok st') := by
  obtain ⟨u0, hu0, hp0⟩ := hpend
  have hnr0 : unitReady tree0 u0 = false := by
    cases hv : unitReady tree0 u0 with
    | false => rfl
    | true =>
      have hcv := construct_registered_of_ready u0 hok hu0 hv
      rw [hp0] at hcv
      exact Bool.noConfusion hcv
  have hcoarse : st0.coarse = [updatedFromServer] :=
    construct_coarse_of_pending u0 hok hu0 hnr0
  obtain ⟨st1, hrun⟩ := runPendingUnits_exists units st0 hwf
  obtain ⟨r1, r2, r3, r4⟩ := runPendingUnits_ok units st0 st1 hnd hrun
  have hreg : ∀ v ∈ units, isRegistered st1 v = true := by
    intro v hv
    cases hvr : st0.registered.contains v.name with
    | true =>
      unfold isRegistered
      rw [contains_iff_mem, r1]
      exact List.mem_append.mpr (Or.inl (contains_iff_mem.mp hvr))
    | false =>
      have hrv := hready v hv hvr
      have hnm : v.name ∉ st0.registered := fun hm => by
        have hcm := contains_iff_mem.mpr hm
        rw [hvr] at hcm
        exact Bool.noConfusion hcm
      have hmem : v ∈ newlyReady tree1 st0 units :=
        List.mem_filter.mpr ⟨hv, by simp [isRegistered, hrv, hnm]⟩
      unfold isRegistered
      rw [contains_iff_mem, r1]
      exact List.mem_append.mpr (Or.inr (List.mem_map_of_mem SubUnit.name hmem))
  have hall1 : units.all (fun v => isRegistered st1 v) = true :=
    List.all_eq_true.mpr hreg
  have hrc : removeCoarse st1 = .ok { st1 with coarse := [] } := by
    unfold removeCoarse
    rw [r3, hcoarse]
    have hc1 : ([updatedFromServer].contains updatedFromServer) = true := by decide
    have hc2 : ([updatedFromServer].erase updatedFromServer) = ([] : List String) := by
      decide
    rw [hc1, hc2]
    simp
  refine ⟨{ st1 with coarse := [] }, ?_, ?_, ?_, rfl, ?_, ?_⟩
  · unfold coarseHandler
    rw [hrun]
    show (if (units.all fun v => isRegistered st1 v) = true
        then removeCoarse st1 else Except.ok st1) = Except.ok { st1 with coarse := [] }
    rw [hall1]
    simpa using hrc
  · intro u hu
    exact hreg u hu
  · intro u hu hp f hf hsup
    show mkEntry u.name f ∈ st1.fineListeners
    rw [r2]
    apply List.mem_append.mpr
    right
    apply List.mem_flatMap.mpr
    refine ⟨u, ?_, mem_entriesOf.mpr ⟨f, hf, hsup, rfl⟩⟩
    have hnm : u.name ∉ st0.registered := fun hm => by
      have hcm := contains_iff_mem.mpr hm
      rw [hp] at hcm
      exact Bool.noConfusion hcm
    exact List.mem_filter.mpr ⟨hu, by simp [isRegistered, hready u hu hp, hnm]⟩
  · intro tree2 st2 h2 hpv
    obtain ⟨v, hv, hvp⟩ := hpv
    unfold coarseHandler at h2
    cases hq : runPendingUnits flags tree2 units st0 with
    | error e => rw [hq] at h2; exact Except.noConfusion h2
    | ok stq =>
      rw [hq] at h2
      have h2' : (if (units.all fun w => isRegistered stq w) = true
          then removeCoarse stq else Except.ok stq) = Except.ok st2 := h2
      obtain ⟨_, _, q3, _⟩ := runPendingUnits_extends units st0 stq hq
      cases hallq : units.all (fun w => isRegistered stq w) with
      | true =>
        rw [hallq] at h2'
        simp only [if_true] at h2'
        obtain ⟨rr1, _, _, _⟩ := removeCoarse_ok h2'
        have hvq := List.all_eq_true.mp hallq v hv
        unfold isRegistered at hvq
        rw [rr1] at hvp
        rw [hvp] at hvq
        exact Bool.noConfusion hvq
      | false =>
        rw [hallq] at h2'
        simp only [Bool.false_eq_true, if_false] at h2'
        injection h2' with h2'
        subst h2'
        exact q3
  · intro ts
    induction ts with
    | nil => rfl
    | cons t ts ih =>
      simp only [runUpdates]
      have hstep : coarseStep flags units { st1 with coarse := [] } t =
          .ok { st1 with coarse := [] } := by
        simp [coarseStep]
      rw [hstep]
      exact ih

/-- Witness for the amended C3: both units pending on the disabled tree, all
readiness conditions holding after the update; the handler registers both units
and removes the coarse listener. -/
theorem C3_witness :
    ∃ st', coarseHandler [] treeReady specUnits pendingSt = .ok st' ∧
      (∀ u ∈ specUnits, st'.registered.contains u.name = true) ∧
      (∀ u ∈ specUnits, pendingSt.registered.contains u.name = false →
        ∀ f ∈ u.fields, suppressed [] f = false →
          mkEntry u.name f ∈ st'.fineListeners) ∧
      st'.coarse = [] ∧
      (∀ (tree2 : StatusTree) (st2 : ManagerState),
        coarseHandler [] tree2 specUnits pendingSt = .ok st2 →
        (∃ v ∈ specUnits, st2.registered.contains v.name = false) →
        st2.coarse = pendingSt.coarse) ∧
      (∀ ts : List StatusTree, runUpdates [] specUnits ts st' = .ok st') :=
  C3_coarse_event_amended [] treePending treeReady specUnits pendingSt
    (by decide) (by decide) (by decide) (by decide) (by decide)

end Manager
